import Mathlib

/-!
Verification of the tecexp export pipeline (src/main.rs).

The program mirrors a tree of Markdown notes into a static-site directory,
parsing a YAML-like front-matter block, filtering on `publish: web`,
comparing modification timestamps, rewriting `[[...]]` references outside
code fences, and truncating at a `=== end ===` marker.

Embedding conventions:
* A text line is a `List Char`; a file body is a `List (List Char)`.
  Byte indices of Rust `str::find` coincide with character positions at
  match boundaries for the ASCII patterns involved, so positions are
  measured in characters.
* `BTreeMap<String, Prop>` is a key-sorted association list
  (`Props`); `insertP` keeps keys in ascending lexicographic order,
  mirroring the iteration order guarantee of `BTreeMap`.
* Filesystem state relevant to the pipeline is passed explicitly:
  modification times are naturals, an absent destination is `none`, and
  the Iso8601-formatted modification time is an input string.  Writes and
  asset copies performed by `export` are returned as data: `none` means
  the function performed no destination write and no asset copy.
-/

/-- The two shapes of a front-matter value: `Prop::Str` and `Prop::Vec`
from the source (the Rust enum is named `Prop`, which Lean reserves). -/
inductive PropVal where
  | Str (s : List Char)
  | Vec (v : List (List Char))
deriving DecidableEq, Repr

/-- A `BTreeMap<String, Prop>`: an association list kept sorted by key. -/
abbrev Props := List (List Char × PropVal)

/-- Strict lexicographic order on keys, the order `BTreeMap<String, _>`
sorts by (byte order of UTF-8 agrees with code-point order). -/
def ltKey : List Char → List Char → Bool
  | [], [] => false
  | [], _ :: _ => true
  | _ :: _, [] => false
  | a :: as, b :: bs => if a < b then true else if b < a then false else ltKey as bs

/-- `BTreeMap::insert`: replace the value at an existing key, otherwise
insert at the sorted position. -/
def insertP (k : List Char) (v : PropVal) : Props → Props
  | [] => [(k, v)]
  | (k2, v2) :: rest =>
    if ltKey k k2 then (k, v) :: (k2, v2) :: rest
    else if k = k2 then (k, v) :: rest
    else (k2, v2) :: insertP k v rest

/-- `BTreeMap::get`. -/
def getP (k : List Char) : Props → Option PropVal
  | [] => none
  | (k2, v) :: rest => if k2 = k then some v else getP k rest

/-- `props.get_mut(&vec_key)` followed by `vec.push(val)`: append to the
list stored at `k` when that entry currently holds a `Vec`; otherwise
leave the map unchanged. -/
def pushVec (k : List Char) (v : List Char) : Props → Props
  | [] => []
  | (k2, pv) :: rest =>
    if k2 = k then
      match pv with
      | PropVal.Vec xs => (k2, PropVal.Vec (xs ++ [v])) :: rest
      | PropVal.Str s => (k2, PropVal.Str s) :: rest
    else (k2, pv) :: pushVec k v rest

/-- Rust `str::trim`: drop whitespace from both ends. -/
def trimL (cs : List Char) : List Char :=
  ((cs.dropWhile Char.isWhitespace).reverse.dropWhile Char.isWhitespace).reverse

/-- Rust `str::trim_matches('"')`: strip all leading and trailing `"`. -/
def trimQuotes (cs : List Char) : List Char :=
  ((cs.dropWhile (fun c => c = '"')).reverse.dropWhile (fun c => c = '"')).reverse

/-- `to_url` (src/main.rs:151): replace spaces with hyphens, then slashes
with hyphens, then lowercase (modelled per character; the slug inputs of
interest are ASCII, where Rust's `to_lowercase` is also per character). -/
def to_url (p : List Char) : List Char :=
  ((p.map (fun c => if c = ' ' then '-' else c)).map
      (fun c => if c = '/' then '-' else c)).map Char.toLower

/-- Rust `str::split(',')`: splitting the empty string yields `[""]`. -/
def splitComma : List Char → List (List Char)
  | [] => [[]]
  | c :: rest =>
    if c = ',' then [] :: splitComma rest
    else
      match splitComma rest with
      | [] => [[c]]
      | a :: as => (c :: a) :: as

/-- `str_to_vec` (src/main.rs:375): a value wrapped in `[...]` is split on
commas, each item trimmed and stripped of surrounding quotes. -/
def str_to_vec (val : List Char) : Option (List (List Char)) :=
  if val.head? = some '[' ∧ val.getLast? = some ']' then
    some ((splitComma ((val.drop 1).dropLast)).map (fun item => trimQuotes (trimL item)))
  else none

/-- Rust `str::find(c)` splitting the string at the first occurrence:
returns the text before and after that character. -/
def splitFirst (t : Char) : List Char → Option (List Char × List Char)
  | [] => none
  | c :: rest =>
    if c = t then some ([], rest)
    else
      match splitFirst t rest with
      | none => none
      | some (a, b) => some (c :: a, b)

example : to_url "My Note".data = "my-note".data := by decide
example : to_url "A/B C".data = "a-b-c".data := by decide
example : str_to_vec "[a, b, \"c d\"]".data = some ["a".data, "b".data, "c d".data] := by decide
example : trimL "  --- ".data = "---".data := by decide

/-- `line[(curr + 2)..].find("]]")` together with the slicing around it:
split a character list at the first adjacent pair `]]`, returning the text
before the pair and the text after it. -/
def splitAtClose : List Char → Option (List Char × List Char)
  | [] => none
  | [_] => none
  | c :: d :: rest =>
    if c = ']' ∧ d = ']' then some ([], rest)
    else
      match splitAtClose (d :: rest) with
      | none => none
      | some (a, b) => some (c :: a, b)

/-- What the reference-rewriting loop (src/main.rs:237-255) emits for the
text `inner` found between `[[` and `]]`, paired with the asset copies it
triggers (source name, slugified destination name, both relative to the
asset roots). -/
def replaceInner (inner : List Char) : List Char × List (List Char × List Char) :=
  if ".png".data.isSuffixOf inner ∨ ".jpg".data.isSuffixOf inner then
    let inner_url := to_url inner
    ('[' :: (inner_url ++ "](/assets/".data ++ inner_url ++ ")".data),
      [(inner, inner_url)])
  else if trimL inner ≠ [] then
    ('[' :: (inner ++ "](/posts/".data ++ to_url inner ++ "/)".data), [])
  else
    ('[' :: '[' :: (inner ++ "]]".data), [])

/-- Fuelled form of the `while let Some(start) = line[curr..].find("[[")`
scan (src/main.rs:234-257).  Text before each `[[` is emitted verbatim; a
matched marker is replaced by `replaceInner`; an unmatched `[[` causes the
rest of the line to be emitted verbatim and the scan to stop.  The fuel
only bounds recursion depth: it is never exhausted when it starts at the
length of the line (each step consumes at least one character). -/
def rewriteScanF : Nat → List Char → List Char × List (List Char × List Char)
  | _, [] => ([], [])
  | 0, cs => (cs, [])
  | _ + 1, [c] => ([c], [])
  | fuel + 1, c :: d :: rest =>
    if c = '[' ∧ d = '[' then
      match splitAtClose rest with
      | none => ('[' :: '[' :: rest, [])
      | some (inner, after) =>
        let r := replaceInner inner
        let t := rewriteScanF fuel after
        (r.1 ++ t.1, r.2 ++ t.2)
    else
      let t := rewriteScanF fuel (d :: rest)
      (c :: t.1, t.2)

/-- The per-line reference rewriting: the emitted line paired with the
asset copies performed while scanning it. -/
def rewriteScan (cs : List Char) : List Char × List (List Char × List Char) :=
  rewriteScanF cs.length cs

example : rewriteScan "see [[My Note]] ok".data
    = ("see [My Note](/posts/my-note/) ok".data, []) := by decide
example : rewriteScan "a [[pic.png]] b".data
    = ("a [pic.png](/assets/pic.png) b".data, [("pic.png".data, "pic.png".data)]) := by decide
example : rewriteScan "x [[ ]] y".data = ("x [[ ]] y".data, []) := by decide
example : rewriteScan "x [[unclosed".data = ("x [[unclosed".data, []) := by decide

/-- Helper for `trim_end_matches(".md")`, working on the reversed
characters: remove every trailing `.md` (reversed: `dm.`). -/
def trimEndMdRev : List Char → List Char
  | 'd' :: 'm' :: '.' :: rest => trimEndMdRev rest
  | l => l

/-- Rust `str::trim_end_matches(".md")` as used in `build_dst_props`
(src/main.rs:273): repeatedly strip a trailing `.md`. -/
def trim_end_md (s : List Char) : List Char :=
  (trimEndMdRev s.reverse).reverse

example : trim_end_md "Note.md".data = "Note".data := by decide
example : trim_end_md "a.md.md".data = "a".data := by decide
example : trim_end_md "notes.txt".data = "notes.txt".data := by decide

/-- `build_dst_props` (src/main.rs:265): insert `title` (the file name
with trailing `.md` stripped), `date` (the Iso8601-formatted modification
time, supplied here as `dateStr` since the formatting is done by the
external `time` crate), and a copy of the source `tags` entry when one
exists. -/
def build_dst_props (src_props : Props) (fileName : List Char) (dateStr : List Char) : Props :=
  let title := trim_end_md fileName
  let p1 := insertP "title".data (PropVal.Str title) []
  let p2 := insertP "date".data (PropVal.Str dateStr) p1
  match getP "tags".data src_props with
  | some tags => insertP "tags".data tags p2
  | none => p2

/-- `contain_publish_web` (src/main.rs:290): the `publish` entry exists,
is a scalar, and equals `web`. -/
def contain_publish_web (props : Props) : Bool :=
  match getP "publish".data props with
  | some (PropVal.Str v) => v = "web".data
  | _ => false

/-- `is_modified` (src/main.rs:298): true when the destination is absent,
otherwise when the source modification time strictly exceeds the
destination's.  Times are abstracted to naturals; `none` means the
destination file does not exist. -/
def is_modified (srcMtime : Nat) (dstMtime : Option Nat) : Bool :=
  match dstMtime with
  | none => true
  | some d => decide (d < srcMtime)

/-- The leading-blank-line skip of `extract_src_props`
(src/main.rs:311-317); a line is skipped only when it is exactly empty. -/
def skipEmpty : List (List Char) → List (List Char)
  | [] => []
  | l :: rest => if l = [] then skipEmpty rest else l :: rest

/-- The body of the front-matter loop (src/main.rs:329-367): a fold over
lines with the accumulated map and the pending list-continuation key
(`vec_key`, empty meaning none) as explicit state; stops at a line
trimming to `---` (consumed) or at end of input, returning the map and
the remaining lines. -/
def propsLoop : Props → List Char → List (List Char) → Props × List (List Char)
  | props, _, [] => (props, [])
  | props, vec_key, line :: rest =>
    if trimL line = "---".data then (props, rest)
    else
      match splitFirst ':' line with
      | some (k0, v0) =>
        let key := trimL k0
        let val := trimL v0
        if key ≠ [] ∧ val ≠ [] then
          match str_to_vec val with
          | some vec => propsLoop (insertP key (PropVal.Vec vec) props) [] rest
          | none => propsLoop (insertP key (PropVal.Str val) props) [] rest
        else if key ≠ [] ∧ val = [] then
          propsLoop (insertP key (PropVal.Vec []) props) key rest
        else
          propsLoop props [] rest
      | none =>
        match splitFirst '-' line with
        | some (p0, v0) =>
          if trimL p0 ≠ [] then propsLoop props vec_key rest
          else if vec_key = [] then propsLoop props vec_key rest
          else
            let val := trimL v0
            if val = [] then propsLoop props vec_key rest
            else propsLoop (pushVec vec_key val props) vec_key rest
        | none => propsLoop props vec_key rest

/-- `extract_src_props` (src/main.rs:308): skip blank lines, require a
line trimming to `---`, run the property loop, and return the map only if
it is non-empty, together with the lines left for the content pass. -/
def extract_src_props (lines : List (List Char)) : Option (Props × List (List Char)) :=
  match skipEmpty lines with
  | [] => none
  | l :: rest =>
    if trimL l = "---".data then
      let pr := propsLoop [] [] rest
      if pr.1 ≠ [] then some pr else none
    else none

/-- The front-matter writing loop (src/main.rs:195-207) for one entry:
a scalar becomes `key: value`; a list becomes a `key:` header line
followed by one ` - item` line per item. -/
def renderEntry : List Char × PropVal → List (List Char)
  | (key, PropVal.Str s) => [key ++ ": ".data ++ s]
  | (key, PropVal.Vec v) => (key ++ ":".data) :: v.map (fun item => " - ".data ++ item)

/-- The front-matter writing loop over the whole destination map, in its
iteration order. -/
def renderProps : Props → List (List Char)
  | [] => []
  | e :: rest => renderEntry e ++ renderProps rest

/-- The content loop of `export` (src/main.rs:211-258): stop at a line
trimming to `=== end ===`; track the `is_coding` flag exactly as the
source does (a line starting a fence is checked against the bare closing
marker on that same line); lines inside a fence are emitted unchanged;
prose lines go through `rewriteScan`.  Returns the emitted lines and the
asset copies in order. -/
def contentLoop (is_coding : Bool) : List (List Char) → List (List Char) × List (List Char × List Char)
  | [] => ([], [])
  | line :: rest =>
    if trimL line = "=== end ===".data then ([], [])
    else
      let c1 := if is_coding = false ∧ "```".data.isPrefixOf (trimL line) then true else is_coding
      if c1 then
        let c2 := if trimL line = "```".data then false else c1
        let t := contentLoop c2 rest
        (line :: t.1, t.2)
      else
        let r := rewriteScan line
        let t := contentLoop false rest
        (r.1 :: t.1, r.2 ++ t.2)

/-- The observable effects of one `export` call: the lines written to the
destination file and the asset copies performed, in order. -/
structure ExportResult where
  dstLines : List (List Char)
  copies : List (List Char × List Char)
deriving DecidableEq, Repr

/-- `export` (src/main.rs:171): the per-file orchestrator.  `none` means
the call was a no-op — no destination write and no asset copy (missing
front matter, not publishable, or destination up to date); `some` carries
everything written.  The source file's lines, name, formatted and raw
modification time, and the destination's modification time (absent when
the destination does not exist) are the relevant filesystem state, passed
explicitly. -/
def export_file (srcLines : List (List Char)) (fileName : List Char) (dateStr : List Char)
    (srcMtime : Nat) (dstMtime : Option Nat) : Option ExportResult :=
  match extract_src_props srcLines with
  | none => none
  | some (src_props, rest) =>
    if contain_publish_web src_props = false then none
    else if is_modified srcMtime dstMtime = false then none
    else
      let dst_props := build_dst_props src_props fileName dateStr
      let body := contentLoop false rest
      some { dstLines := ("---".data :: renderProps dst_props) ++ ("---".data :: body.1)
             copies := body.2 }

example :
    export_file ["---".data, "publish: web".data, "tags: [a, b, \"c d\"]".data, "---".data,
        "See [[Other Note]]".data]
      "Note.md".data "D".data 2 (some 1)
    = some { dstLines := ["---".data, "date: D".data, "tags:".data, " - a".data, " - b".data,
               " - c d".data, "title: Note".data, "---".data,
               "See [Other Note](/posts/other-note/)".data]
             copies := [] } := by decide

example :
    export_file ["---".data, "publish: draft".data, "---".data, "body".data]
      "Note.md".data "D".data 2 (some 1) = none := by decide

example :
    export_file ["---".data, "publish: web".data, "---".data, "body".data]
      "Note.md".data "D".data 1 (some 1) = none := by decide

/-- The claim phrase `the source filename without its extension`, taken
from the spec's words for comparison with the code's behaviour: the part
of the name before its final dot, or the whole name when it contains no
dot. -/
def dropLastExt (name : List Char) : List Char :=
  if name.contains '.' then ((name.reverse.dropWhile (fun c => c ≠ '.')).drop 1).reverse
  else name

/-- The three sequential character passes of `to_url` amount to one pass:
map spaces and slashes to hyphens, then lowercase. -/
theorem to_url_eq (s : List Char) :
    to_url s = s.map (fun c => Char.toLower (if c = ' ' ∨ c = '/' then '-' else c)) := by
  induction s with
  | nil => rfl
  | cons c cs ih =>
    simp only [to_url, List.map_cons] at ih ⊢
    rw [ih]
    by_cases h1 : c = ' ' <;> by_cases h2 : c = '/' <;> simp [h1, h2]

/-- Characterization of `build_dst_props`: exactly a `date` entry, a
`tags` entry when the source has one, and a `title` entry, in that key
order. -/
theorem build_dst_props_eq (sp : Props) (fn ds : List Char) :
    build_dst_props sp fn ds =
      match getP "tags".data sp with
      | some tags => [("date".data, PropVal.Str ds), ("tags".data, tags),
          ("title".data, PropVal.Str (trim_end_md fn))]
      | none => [("date".data, PropVal.Str ds),
          ("title".data, PropVal.Str (trim_end_md fn))] := by
  unfold build_dst_props
  cases h : getP "tags".data sp <;> simp only [h] <;> rfl

/-- Claim C9: the slug encoder is a pure deterministic function that
replaces every space and path-separator character with a hyphen and then
lowercases; in particular `to_url s = to_url s`, `My Note ↦ my-note` and
`A/B C ↦ a-b-c`. -/
theorem slug_encoder_correct :
    (∀ s : List Char, to_url s = to_url s) ∧
    (∀ s : List Char,
      to_url s = s.map (fun c => Char.toLower (if c = ' ' ∨ c = '/' then '-' else c))) ∧
    to_url "My Note".data = "my-note".data ∧
    to_url "A/B C".data = "a-b-c".data :=
  ⟨fun _ => rfl, to_url_eq, by decide, by decide⟩

/-- Claim C4: the staleness check is true when the destination does not
exist, and otherwise true exactly when the source's modification time is
strictly later; equal timestamps yield false, and an export with a
destination at least as new as the source is a no-op. -/
theorem staleness_check_correct :
    (∀ s : Nat, is_modified s none = true) ∧
    (∀ s d : Nat, (is_modified s (some d) = true ↔ d < s)) ∧
    (∀ t : Nat, is_modified t (some t) = false) ∧
    (∀ (lines : List (List Char)) (fn ds : List Char) (s d : Nat), s ≤ d →
      export_file lines fn ds s (some d) = none) := by
  refine ⟨fun _ => rfl, fun s d => by simp [is_modified], fun t => by simp [is_modified], ?_⟩
  intro lines fn ds s d hsd
  have hmod : is_modified s (some d) = false := by simp [is_modified]; omega
  unfold export_file
  cases h : extract_src_props lines with
  | none => rfl
  | some pr =>
    cases hc : contain_publish_web pr.1 <;> simp [hc, hmod]

theorem staleness_check_witness :
    export_file ["---".data, "publish: web".data, "---".data] "n.md".data "D".data 1 (some 1)
      = none :=
  staleness_check_correct.2.2.2 ["---".data, "publish: web".data, "---".data]
    "n.md".data "D".data 1 1 (by decide)

/-- Claim C3: the publish filter is true exactly when the map holds a
scalar `publish` entry equal to `web`, and a note whose parsed properties
fail the filter produces no destination artifact. -/
theorem publish_filter_correct :
    (∀ props : Props,
      (contain_publish_web props = true ↔
        getP "publish".data props = some (PropVal.Str "web".data))) ∧
    (∀ (lines : List (List Char)) (fn ds : List Char) (s : Nat) (dM : Option Nat)
        (props : Props) (rest : List (List Char)),
      extract_src_props lines = some (props, rest) →
      contain_publish_web props = false →
      export_file lines fn ds s dM = none) := by
  constructor
  · intro props
    unfold contain_publish_web
    cases h : getP "publish".data props with
    | none => simp [h]
    | some v =>
      cases v with
      | Str s => simp [h]
      | Vec v => simp [h]
  · intro lines fn ds s dM props rest hx hc
    unfold export_file
    rw [hx]
    simp [hc]

theorem publish_filter_witness :
    export_file ["---".data, "publish: draft".data, "---".data, "[[x]]".data]
      "n.md".data "D".data 2 none = none :=
  publish_filter_correct.2 ["---".data, "publish: draft".data, "---".data, "[[x]]".data]
    "n.md".data "D".data 2 none [("publish".data, PropVal.Str "draft".data)] ["[[x]]".data]
    (by decide) (by decide)

/-- Claim C8: an export short-circuits to a complete no-op — no
destination write, no asset copy — when the front-matter extraction
returns no map, when the note is not publishable, or when the destination
is up to date. -/
theorem export_noop_short_circuit :
    (∀ (lines : List (List Char)) (fn ds : List Char) (s : Nat) (dM : Option Nat),
      extract_src_props lines = none → export_file lines fn ds s dM = none) ∧
    (∀ (lines : List (List Char)) (fn ds : List Char) (s : Nat) (dM : Option Nat)
        (props : Props) (rest : List (List Char)),
      extract_src_props lines = some (props, rest) →
      contain_publish_web props = false → export_file lines fn ds s dM = none) ∧
    (∀ (lines : List (List Char)) (fn ds : List Char) (s : Nat) (dM : Option Nat)
        (props : Props) (rest : List (List Char)),
      extract_src_props lines = some (props, rest) →
      is_modified s dM = false → export_file lines fn ds s dM = none) := by
  refine ⟨?_, ?_, ?_⟩
  · intro lines fn ds s dM hx
    unfold export_file
    rw [hx]
  · intro lines fn ds s dM props rest hx hc
    unfold export_file
    rw [hx]
    simp [hc]
  · intro lines fn ds s dM props rest hx hm
    unfold export_file
    rw [hx]
    cases hc : contain_publish_web props <;> simp [hc, hm]

theorem export_noop_witness :
    export_file ["no front matter here".data, "[[x]]".data] "n.md".data "D".data 5 none
      = none :=
  export_noop_short_circuit.1 ["no front matter here".data, "[[x]]".data]
    "n.md".data "D".data 5 none (by decide)

/-- Claim C6: the front-matter line `tags: [a, b, "c d"]` parses to the
list `a`, `b`, `c d` (comma-split, trimmed, quotes stripped); a list
value is re-emitted as a `key:` header followed by one indented
hyphen-prefixed line per item in order; and a full export of such a note
writes exactly those three item lines. -/
theorem tags_roundtrip :
    str_to_vec "[a, b, \"c d\"]".data = some ["a".data, "b".data, "c d".data] ∧
    (∀ (k : List Char) (items : List (List Char)),
      renderEntry (k, PropVal.Vec items)
        = (k ++ ":".data) :: items.map (fun item => " - ".data ++ item)) ∧
    export_file ["---".data, "publish: web".data, "tags: [a, b, \"c d\"]".data, "---".data,
        "body".data] "Note.md".data "D".data 2 (some 1)
      = some { dstLines := ["---".data, "date: D".data, "tags:".data, " - a".data, " - b".data,
                 " - c d".data, "title: Note".data, "---".data, "body".data]
               copies := [] } :=
  ⟨by decide, fun k items => rfl, by decide⟩

/-- Claim C10: the destination front-matter map is an ordered map — its
entries, hence the written front-matter lines, are in ascending
lexicographic key order, with `date` before `tags` before `title`. -/
theorem dst_props_key_order (sp : Props) (fn ds : List Char) :
    ((build_dst_props sp fn ds).map Prod.fst =
      if (getP "tags".data sp).isSome then ["date".data, "tags".data, "title".data]
      else ["date".data, "title".data]) ∧
    List.Chain' (fun a b => ltKey a b = true) ((build_dst_props sp fn ds).map Prod.fst) := by
  rw [build_dst_props_eq]
  cases h : getP "tags".data sp <;> simp [h] <;> decide

/-- Claim C5 counterexample: for the file name `a.md.md` the code's title
is `a` (every trailing `.md` is stripped by `trim_end_matches`), not the
filename without its extension, which is `a.md`. -/
theorem title_strips_repeated_md :
    getP "title".data (build_dst_props [] "a.md.md".data "D".data)
      = some (PropVal.Str "a".data) ∧
    dropLastExt "a.md.md".data = "a.md".data ∧
    getP "title".data (build_dst_props [] "a.md.md".data "D".data)
      ≠ some (PropVal.Str (dropLastExt "a.md.md".data)) := by decide

/-- Claim C5 (amended): the metadata builder returns exactly a `title`
entry — the file name with every trailing `.md` suffix removed, used
verbatim — a `date` entry carrying the formatted modification time, and
the source's `tags` entry exactly when present; no other source property
propagates. -/
theorem build_dst_props_amended (sp : Props) (fn ds : List Char) :
    build_dst_props sp fn ds =
      match getP "tags".data sp with
      | some tags => [("date".data, PropVal.Str ds), ("tags".data, tags),
          ("title".data, PropVal.Str (trim_end_md fn))]
      | none => [("date".data, PropVal.Str ds),
          ("title".data, PropVal.Str (trim_end_md fn))] :=
  build_dst_props_eq sp fn ds

/-- Claim C1 at its failing input: a `[[x]]` line between two bare
triple-backtick fence lines is rewritten, not emitted unchanged — the
opening bare fence sets the in-fence flag and the same-line closing check
immediately clears it, so the fenced region is scanned. -/
theorem bare_fence_not_immune :
    contentLoop false ["```".data, "[[x]]".data, "```".data]
      = (["```".data, "[x](/posts/x/)".data, "```".data], []) := by decide

/-- Claim C7: everything after a line trimming to `=== end ===` is
discarded — the content loop on a body with such a line equals the loop
on the prefix before it, whatever the fence flag and whatever follows. -/
theorem truncation_correct (flag : Bool) (pre post : List (List Char)) (marker : List Char)
    (h : trimL marker = "=== end ===".data) :
    contentLoop flag (pre ++ marker :: post) = contentLoop flag pre := by
  induction pre generalizing flag with
  | nil => simp [contentLoop, h]
  | cons l rest ih =>
    simp only [List.cons_append]
    by_cases h1 : trimL l = "=== end ===".data
    · simp [contentLoop, h1]
    · cases flag with
      | false =>
        by_cases h2 : "```".data.isPrefixOf (trimL l)
        · by_cases h3 : trimL l = "```".data <;> simp [contentLoop, h1, h2, h3, ih]
        · simp [contentLoop, h1, h2, ih]
      | true =>
        by_cases h3 : trimL l = "```".data <;> simp [contentLoop, h1, h3, ih]

theorem truncation_witness :
    contentLoop false ["a".data, "=== end ===".data, "[[x]]".data]
      = contentLoop false ["a".data] :=
  truncation_correct false ["a".data] ["[[x]]".data] "=== end ===".data (by decide)

/-- Whether two given characters occur adjacently, in order, somewhere in
the list: `hasPair a b cs` is the occurrence check for the two-character
markers `[[` and `]]`. -/
def hasPair (a b : Char) : List Char → Bool
  | [] => false
  | [_] => false
  | c :: d :: rest => if c = a ∧ d = b then true else hasPair a b (d :: rest)

theorem splitAtClose_length :
    ∀ (cs a b : List Char), splitAtClose cs = some (a, b) → b.length + 2 ≤ cs.length := by
  intro cs
  induction cs with
  | nil => intro a b h; simp [splitAtClose] at h
  | cons c tail ih =>
    intro a b h
    cases tail with
    | nil => simp [splitAtClose] at h
    | cons d rest =>
      by_cases hcd : c = ']' ∧ d = ']'
      · simp only [splitAtClose, if_pos hcd, Option.some.injEq, Prod.mk.injEq] at h
        rw [← h.2]
        simp only [List.length_cons]
        omega
      · simp only [splitAtClose, if_neg hcd] at h
        cases hs : splitAtClose (d :: rest) with
        | none => rw [hs] at h; simp at h
        | some p =>
          rw [hs] at h
          simp at h
          have := ih p.1 p.2 (by rw [hs])
          simp [← h.2]
          simp at this
          omega

theorem splitAtClose_exact (inner post : List Char)
    (h1 : hasPair ']' ']' inner = false) (h2 : inner.getLast? ≠ some ']') :
    splitAtClose (inner ++ (']' :: ']' :: post)) = some (inner, post) := by
  induction inner with
  | nil => simp [splitAtClose]
  | cons c inner2 ih =>
    cases inner2 with
    | nil =>
      have hc : c ≠ ']' := by simpa using h2
      simp [splitAtClose, hc]
    | cons e inner3 =>
      have hne : ¬(c = ']' ∧ e = ']') := by
        rintro ⟨rfl, rfl⟩
        simp [hasPair] at h1
      have h1' : hasPair ']' ']' (e :: inner3) = false := by
        simpa [hasPair, hne] using h1
      have h2' : (e :: inner3).getLast? ≠ some ']' := by
        simpa [List.getLast?_cons_cons] using h2
      have ih' := ih h1' h2'
      simp only [List.cons_append] at ih' ⊢
      simp [splitAtClose, hne, ih']

theorem rewriteScanF_fuel :
    ∀ (f : Nat) (cs : List Char) (g : Nat), cs.length ≤ f → cs.length ≤ g →
      rewriteScanF f cs = rewriteScanF g cs := by
  intro f
  induction f with
  | zero =>
    intro cs g hf _
    have : cs = [] := by
      cases cs with
      | nil => rfl
      | cons c rest => simp at hf
    subst this
    cases g <;> rfl
  | succ f ih =>
    intro cs g hf hg
    match cs with
    | [] => cases g <;> rfl
    | [c] =>
      cases g with
      | zero => simp at hg
      | succ g2 => rfl
    | c :: d :: rest =>
      cases g with
      | zero => simp at hg
      | succ g2 =>
        simp only [List.length_cons] at hf hg
        by_cases hcd : c = '[' ∧ d = '['
        · cases hs : splitAtClose rest with
          | none => simp [rewriteScanF, hcd, hs]
          | some p =>
            have hlen := splitAtClose_length rest p.1 p.2 hs
            have heq := ih p.2 g2 (by omega) (by omega)
            simp [rewriteScanF, hcd, hs, heq]
        · have heq := ih (d :: rest) g2 (by simp; omega) (by simp; omega)
          simp [rewriteScanF, hcd, heq]

theorem replaceInner_link (inner : List Char)
    (h5 : ".png".data.isSuffixOf inner = false) (h6 : ".jpg".data.isSuffixOf inner = false)
    (h7 : trimL inner ≠ []) :
    replaceInner inner
      = ('[' :: (inner ++ "](/posts/".data ++ to_url inner ++ "/)".data), []) := by
  simp [replaceInner, h5, h6, h7]

theorem rewriteScanF_occurrence :
    ∀ (pre : List Char) (fuel : Nat) (inner post : List Char),
      (pre ++ ('[' :: '[' :: (inner ++ (']' :: ']' :: post)))).length ≤ fuel →
      hasPair '[' '[' pre = false → pre.getLast? ≠ some '[' →
      hasPair ']' ']' inner = false → inner.getLast? ≠ some ']' →
      rewriteScanF fuel (pre ++ ('[' :: '[' :: (inner ++ (']' :: ']' :: post))))
        = (pre ++ (replaceInner inner).1 ++ (rewriteScan post).1,
           (replaceInner inner).2 ++ (rewriteScan post).2) := by
  intro pre
  induction pre with
  | nil =>
    intro fuel inner post hf h1 h2 h3 h4
    cases fuel with
    | zero => simp at hf
    | succ f =>
      have hs := splitAtClose_exact inner post h3 h4
      have hfp : rewriteScanF f post = rewriteScan post := by
        apply rewriteScanF_fuel
        · simp at hf; omega
        · rfl
      simp [rewriteScanF, hs, hfp]
  | cons c pre2 ih =>
    intro fuel inner post hf h1 h2 h3 h4
    cases fuel with
    | zero => simp at hf
    | succ f =>
      cases pre2 with
      | nil =>
        have hc : c ≠ '[' := by simpa using h2
        have ih0 := ih f inner post (by simp at hf ⊢; omega)
          (by simp [hasPair]) (by simp) h3 h4
        simp only [List.nil_append] at ih0
        simp only [List.cons_append]
        simp [rewriteScanF, hc, ih0]
      | cons e pre3 =>
        have hne : ¬(c = '[' ∧ e = '[') := by
          rintro ⟨rfl, rfl⟩
          simp [hasPair] at h1
        have h1' : hasPair '[' '[' (e :: pre3) = false := by
          simpa [hasPair, hne] using h1
        have h2' : (e :: pre3).getLast? ≠ some '[' := by
          simpa [List.getLast?_cons_cons] using h2
        have ih' := ih f inner post (by simp at hf ⊢; omega) h1' h2' h3 h4
        simp only [List.cons_append] at ih' ⊢
        simp [rewriteScanF, hne, ih']

/-- Claim C2: outside code fences, a `[[inner]]` occurrence whose inner
text trims to non-empty and carries no image suffix is rewritten to
`[inner](/posts/slug/)` with the original inner text as display text and
its slug as target, the text before the marker is emitted verbatim, and
scanning resumes after the closing `]]`; and the content loop applies
exactly this scan to every prose line. -/
theorem crossref_rewrite_correct :
    (∀ pre inner post : List Char,
      hasPair '[' '[' pre = false → pre.getLast? ≠ some '[' →
      hasPair ']' ']' inner = false → inner.getLast? ≠ some ']' →
      ".png".data.isSuffixOf inner = false → ".jpg".data.isSuffixOf inner = false →
      trimL inner ≠ [] →
      rewriteScan (pre ++ ('[' :: '[' :: (inner ++ (']' :: ']' :: post))))
        = (pre ++ ('[' :: (inner ++ "](/posts/".data ++ to_url inner ++ "/)".data))
             ++ (rewriteScan post).1,
           (rewriteScan post).2)) ∧
    (∀ (line : List Char) (rest : List (List Char)),
      trimL line ≠ "=== end ===".data →
      "```".data.isPrefixOf (trimL line) = false →
      contentLoop false (line :: rest)
        = ((rewriteScan line).1 :: (contentLoop false rest).1,
           (rewriteScan line).2 ++ (contentLoop false rest).2)) := by
  constructor
  · intro pre inner post h1 h2 h3 h4 h5 h6 h7
    have := rewriteScanF_occurrence pre
      (pre ++ ('[' :: '[' :: (inner ++ (']' :: ']' :: post)))).length inner post
      (le_refl _) h1 h2 h3 h4
    rw [rewriteScan, this, replaceInner_link inner h5 h6 h7]
    simp
  · intro line rest hend hfence
    simp [contentLoop, hend, hfence]

theorem crossref_rewrite_witness :
    rewriteScan ("see ".data ++ ('[' :: '[' :: ("My Note".data ++ (']' :: ']' :: ", end".data))))
      = ("see ".data
           ++ ('[' :: ("My Note".data ++ "](/posts/".data ++ to_url "My Note".data ++ "/)".data))
           ++ (rewriteScan ", end".data).1,
         (rewriteScan ", end".data).2) :=
  crossref_rewrite_correct.1 "see ".data "My Note".data ", end".data
    (by decide) (by decide) (by decide) (by decide) (by decide) (by decide) (by decide)
